import Mathlib

/-!
Verification development for the BOinG configuration chooser
(`smac/optimizer/configuration_chooser/boing_chooser.py`) and the abstract
acquisition function (`smac/acquisition/functions/abstract_acquisition_function.py`).

The Python code is shallowly embedded: numpy float values are modelled as
rationals, boolean masks as `List Bool`, the per-tree traversal cursors as the
subtree currently under the cursor, and the `np.random.shuffle` calls as an
explicit stream of visitation orders (one list of tree indices per pass).
`while` loops are modelled with an explicit fuel argument; all invariants are
proved for every fuel value, hence for the value the real loop reaches.
-/

namespace Boing

/-- A regression tree of the random forest, as exposed through
`model.rf.get_all_trees()` / `tree.get_node`.  A non-leaf node carries its
split feature index (`node.get_feature_index()`), its numerical split value
(`node.get_num_split_value()`, read when the feature is continuous) and its
categorical split value set (`node.get_cat_split()`, read when the feature is
categorical), plus the two children (`node.get_child_index(0/1)`). -/
inductive RTree : Type
  | leaf : RTree
  | node (feature : ℕ) (numSplit : ℚ) (catSplit : Finset ℚ) (left right : RTree) : RTree
deriving DecidableEq

/-- All arguments of `subspace_extraction` (boing_chooser.py:501).
`bounds` is the full-space bounds array: for a continuous dimension the pair is
`(lower, upper)`, for a categorical dimension the first component is the number
of categories (as produced by `get_types`). -/
structure ExtractCtx : Type where
  X : List (List ℚ)
  challenger : List ℚ
  trees : List RTree
  num_min : ℕ
  num_max : ℕ
  bounds : List (ℚ × ℚ)
  cont_dims : List ℕ
  cat_dims : List ℕ

/-- `np.arange(q)` for a nonnegative float bound `q`, mapped into `ℚ`:
the categorical full domain `{0, 1, ..., ceil q - 1}`. -/
def catDomain (q : ℚ) : Finset ℚ :=
  (Finset.range (Int.toNat (Int.ceil q))).image (fun n : ℕ => (n : ℚ))

/-- The mutable state of `subspace_extraction`: per-tree cursors
(`node_indices`, modelled as the subtree under the cursor), the per-tree
freeze flags (`stop_update`), the shared membership mask (`ss_indices`), the
continuous bounds (`ss_bounds_cont`) and the categorical retained sets
(`ss_bounds_cat`). -/
structure ExtractState : Type where
  cursors : List RTree
  stop_update : List Bool
  ss_indices : List Bool
  ss_bounds_cont : List (ℚ × ℚ)
  ss_bounds_cat : List (Finset ℚ)
deriving DecidableEq

/-- Number of `True` entries of a boolean mask (`sum(mask)` in numpy). -/
def countTrue (l : List Bool) : ℕ := l.count true

/-- `mask & predicate(X)`: elementwise conjunction of the membership mask with
a row predicate. -/
def updateMask (mask : List Bool) (X : List (List ℚ)) (p : List ℚ → Bool) : List Bool :=
  List.zipWith (fun b row => b && p row) mask X

/-- The state at the start of `subspace_extraction` (boing_chooser.py:545-568):
all cursors at the roots, nothing frozen, the mask all `True`, the continuous
bounds equal to the full-space bounds and the categorical retained sets equal
to the full domains (`np.arange(bounds[cat_dim][0])`); when there is no
categorical dimension the source keeps the placeholder list `[()]`. -/
def initState (ctx : ExtractCtx) : ExtractState where
  cursors := ctx.trees
  stop_update := List.replicate ctx.trees.length false
  ss_indices := List.replicate ctx.X.length true
  ss_bounds_cont := ctx.cont_dims.map (fun d => ctx.bounds.getD d (0, 0))
  ss_bounds_cat :=
    if ctx.cat_dims = [] then [∅]
    else ctx.cat_dims.map (fun d => catDomain (ctx.bounds.getD d (0, 0)).1)

/-- Freeze tree `i` (`stop_update[i] = True`). -/
def withStop (s : ExtractState) (i : ℕ) : ExtractState :=
  { s with stop_update := s.stop_update.set i true }

/-- Advance the cursor of tree `i` to a child without touching region or mask
(`node_indices[i] = node.get_child_index(...)`). -/
def withCursor (s : ExtractState) (i : ℕ) (t : RTree) : ExtractState :=
  { s with cursors := s.cursors.set i t }

/-- Commit a continuous shrink: store the tentative bound for continuous
position `ci`, replace the mask by the tentative mask and advance the cursor. -/
def commitCont (s : ExtractState) (i ci : ℕ) (tb : ℚ × ℚ) (tmask : List Bool)
    (child : RTree) : ExtractState :=
  { s with
    ss_bounds_cont := s.ss_bounds_cont.set ci tb
    ss_indices := tmask
    cursors := s.cursors.set i child }

/-- Commit a categorical shrink: store the tentative retained set for
categorical position `ci`, replace the mask and advance the cursor. -/
def commitCat (s : ExtractState) (i ci : ℕ) (tb : Finset ℚ) (tmask : List Bool)
    (child : RTree) : ExtractState :=
  { s with
    ss_bounds_cat := s.ss_bounds_cat.set ci tb
    ss_indices := tmask
    cursors := s.cursors.set i child }

/-- One iteration of the `for i in indices_trees` body of `traverse_forest`
(boing_chooser.py:573-647) for tree index `i`.  `check` is the
`check_num_min` flag. -/
def stepTree (ctx : ExtractCtx) (check : Bool) (s : ExtractState) (i : ℕ) : ExtractState :=
  if s.stop_update.getD i true = true then s
  else
    match s.cursors.getD i RTree.leaf with
    | RTree.leaf => withStop s i
    | RTree.node f nsplit csplit l r =>
      if f ∈ ctx.cont_dims then
        -- the node splits w.r.t. a continuous hyperparameter; the position of
        -- `f` inside `cont_dims` is `cont_dims.indexOf f`
        if (s.ss_bounds_cont.getD (ctx.cont_dims.indexOf f) (0, 0)).1 ≤ nsplit ∧
            nsplit ≤ (s.ss_bounds_cont.getD (ctx.cont_dims.indexOf f) (0, 0)).2 then
          if nsplit ≤ ctx.challenger.getD f 0 then
            -- challenger[feature_idx] >= split_value: tentative bound
            -- [split_value, hi], tentative mask restricted to X >= split_value
            if ctx.num_min <
                countTrue (updateMask s.ss_indices ctx.X (fun row => decide (nsplit ≤ row.getD f 0))) then
              commitCont s i (ctx.cont_dims.indexOf f)
                (nsplit, (s.ss_bounds_cont.getD (ctx.cont_dims.indexOf f) (0, 0)).2)
                (updateMask s.ss_indices ctx.X (fun row => decide (nsplit ≤ row.getD f 0))) r
            else if check then withStop s i else withCursor s i r
          else
            if ctx.num_min <
                countTrue (updateMask s.ss_indices ctx.X (fun row => decide (row.getD f 0 ≤ nsplit))) then
              commitCont s i (ctx.cont_dims.indexOf f)
                ((s.ss_bounds_cont.getD (ctx.cont_dims.indexOf f) (0, 0)).1, nsplit)
                (updateMask s.ss_indices ctx.X (fun row => decide (row.getD f 0 ≤ nsplit))) l
            else if check then withStop s i else withCursor s i l
        else
          -- split value outside the current bound: no information gained
          withCursor s i (if nsplit ≤ ctx.challenger.getD f 0 then r else l)
      else
        -- the node splits w.r.t. a categorical hyperparameter; the retained set
        -- is `ss_bounds_cat.getD (cat_dims.indexOf f) ∅`
        if ((s.ss_bounds_cat.getD (ctx.cat_dims.indexOf f) ∅) ∩ csplit).card =
            (s.ss_bounds_cat.getD (ctx.cat_dims.indexOf f) ∅).card then
          withCursor s i l
        else if ((s.ss_bounds_cat.getD (ctx.cat_dims.indexOf f) ∅) ∩ csplit).card = 0 then
          withCursor s i r
        else
          if ctx.challenger.getD f 0 ∈ (s.ss_bounds_cat.getD (ctx.cat_dims.indexOf f) ∅) ∩ csplit then
            if ctx.num_min <
                countTrue (updateMask s.ss_indices ctx.X (fun row => decide (row.getD f 0 ∈ csplit))) then
              commitCat s i (ctx.cat_dims.indexOf f)
                ((s.ss_bounds_cat.getD (ctx.cat_dims.indexOf f) ∅) ∩ csplit)
                (updateMask s.ss_indices ctx.X (fun row => decide (row.getD f 0 ∈ csplit))) l
            else if check then withStop s i else withCursor s i l
          else
            if ctx.num_min <
                countTrue (updateMask s.ss_indices ctx.X (fun row => decide (row.getD f 0 ∉ csplit))) then
              commitCat s i (ctx.cat_dims.indexOf f)
                ((s.ss_bounds_cat.getD (ctx.cat_dims.indexOf f) ∅) \ csplit)
                (updateMask s.ss_indices ctx.X (fun row => decide (row.getD f 0 ∉ csplit))) r
            else if check then withStop s i else withCursor s i r

/-- One call of `traverse_forest` (one pass over all trees), with the shuffled
visitation order `order` made explicit. -/
def traverse_forest (ctx : ExtractCtx) (check : Bool) (order : List ℕ)
    (s : ExtractState) : ExtractState :=
  order.foldl (stepTree ctx check) s

/-- The `while sum(stop_update) < num_trees: traverse_forest(...)` loop, with
fuel and the per-pass shuffle orders made explicit. -/
def runPasses (ctx : ExtractCtx) (check : Bool) :
    ℕ → (ℕ → List ℕ) → ExtractState → ExtractState
  | 0, _, s => s
  | fuel + 1, orders, s =>
    if countTrue s.stop_update < ctx.trees.length then
      runPasses ctx check fuel (fun k => orders (k + 1)) (traverse_forest ctx check (orders 0) s)
    else s

/-- `subspace_extraction` (boing_chooser.py:501-658): the min-checked pass until
all trees freeze; then, if the membership count still exceeds `num_max`, the
freeze flags are cleared and a second pass runs with `check_num_min=False`. -/
def subspace_extraction (ctx : ExtractCtx) (orders : ℕ → List ℕ)
    (fuel1 fuel2 : ℕ) : ExtractState :=
  let s1 := runPasses ctx true fuel1 orders (initState ctx)
  if ctx.num_max < countTrue s1.ss_indices then
    runPasses ctx false fuel2 (fun k => orders (fuel1 + k))
      { s1 with stop_update := List.replicate ctx.trees.length false }
  else s1

/-- Membership of a row in the region described by continuous bounds `sCont`
(over `cont_dims`) and retained categorical sets `sCat` (over `cat_dims`). -/
def inRegion (sCont : List (ℚ × ℚ)) (sCat : List (Finset ℚ))
    (cont_dims cat_dims : List ℕ) (row : List ℚ) : Prop :=
  (∀ i, i < cont_dims.length →
    (sCont.getD i (0, 0)).1 ≤ row.getD (cont_dims.getD i 0) 0 ∧
      row.getD (cont_dims.getD i 0) 0 ≤ (sCont.getD i (0, 0)).2) ∧
  (∀ i, i < cat_dims.length → row.getD (cat_dims.getD i 0) 0 ∈ sCat.getD i ∅)

instance (sCont : List (ℚ × ℚ)) (sCat : List (Finset ℚ))
    (cont_dims cat_dims : List ℕ) (row : List ℚ) :
    Decidable (inRegion sCont sCat cont_dims cat_dims row) := by
  unfold inRegion
  infer_instance

/-! ### List helper lemmas -/

theorem getD_set_self {α : Type} (l : List α) (i : ℕ) (a d : α) (h : i < l.length) :
    (l.set i a).getD i d = a := by
  rw [List.getD_eq_getElem _ _ (by simpa using h)]
  exact List.getElem_set_self (by simpa using h)

theorem getD_set_ne {α : Type} (l : List α) (i j : ℕ) (a d : α) (h : i ≠ j) :
    (l.set i a).getD j d = l.getD j d := by
  simp [List.getD_eq_getElem?_getD, List.getElem?_set_ne h]

theorem getD_indexOf {α : Type} [DecidableEq α] (l : List α) (a d : α) (h : a ∈ l) :
    l.getD (l.indexOf a) d = a := by
  rw [List.getD_eq_getElem _ _ (List.indexOf_lt_length.mpr h)]
  exact List.getElem_indexOf (List.indexOf_lt_length.mpr h)

theorem length_updateMask (mask : List Bool) (X : List (List ℚ)) (p : List ℚ → Bool) :
    (updateMask mask X p).length = min mask.length X.length := by
  simp [updateMask]

theorem getD_updateMask (mask : List Bool) (X : List (List ℚ)) (p : List ℚ → Bool)
    (j : ℕ) (hm : j < mask.length) (hx : j < X.length) :
    (updateMask mask X p).getD j false = (mask.getD j false && p (X.getD j [])) := by
  have hj : j < (updateMask mask X p).length := by
    rw [length_updateMask]; exact lt_min hm hx
  rw [List.getD_eq_getElem _ _ hj, List.getD_eq_getElem _ _ hm, List.getD_eq_getElem _ _ hx]
  simp [updateMask]

theorem updateMask_true {mask : List Bool} {X : List (List ℚ)} {p : List ℚ → Bool}
    {j : ℕ} (h : (updateMask mask X p).getD j false = true) :
    mask.getD j false = true := by
  by_cases hj : j < (updateMask mask X p).length
  · have hm : j < mask.length := by
      rw [length_updateMask] at hj
      exact lt_of_lt_of_le hj (min_le_left _ _)
    have hx : j < X.length := by
      rw [length_updateMask] at hj
      exact lt_of_lt_of_le hj (min_le_right _ _)
    rw [getD_updateMask mask X p j hm hx] at h
    exact (Bool.and_eq_true_iff.mp h).1
  · rw [List.getD_eq_default _ _ (le_of_not_lt hj)] at h
    exact absurd h (by simp)

theorem countTrue_le_length (l : List Bool) : countTrue l ≤ l.length :=
  List.count_le_length true l

theorem countTrue_updateMask_le (mask : List Bool) (X : List (List ℚ)) (p : List ℚ → Bool) :
    countTrue (updateMask mask X p) ≤ countTrue mask := by
  induction mask generalizing X with
  | nil => simp [updateMask, countTrue]
  | cons b m ih =>
    cases X with
    | nil => simp [updateMask, countTrue]
    | cons row rows =>
      simp only [updateMask, List.zipWith, countTrue, List.count_cons] at ih ⊢
      exact Nat.add_le_add (ih rows) (by cases b <;> cases p row <;> simp)

theorem countTrue_updateMask_le_X (mask : List Bool) (X : List (List ℚ)) (p : List ℚ → Bool) :
    countTrue (updateMask mask X p) ≤ X.length := by
  calc countTrue (updateMask mask X p) ≤ (updateMask mask X p).length := countTrue_le_length _
  _ ≤ X.length := by rw [length_updateMask]; exact min_le_right _ _

/-! ### Shape of a single traversal step

Every `stepTree` outcome either leaves the mask and both bounds untouched
(frozen tree, leaf freeze, cursor advance), or is a committed continuous
shrink, or a committed categorical shrink. -/

/-- The data of a committed continuous shrink (boing_chooser.py:635-639). -/
def ContCommitSpec (ctx : ExtractCtx) (s s2 : ExtractState) : Prop :=
  ∃ f nsplit,
    f ∈ ctx.cont_dims ∧
    (s.ss_bounds_cont.getD (ctx.cont_dims.indexOf f) (0, 0)).1 ≤ nsplit ∧
    nsplit ≤ (s.ss_bounds_cont.getD (ctx.cont_dims.indexOf f) (0, 0)).2 ∧
    ctx.num_min < countTrue s2.ss_indices ∧
    s2.ss_bounds_cat = s.ss_bounds_cat ∧
    ((s2.ss_bounds_cont = s.ss_bounds_cont.set (ctx.cont_dims.indexOf f)
        (nsplit, (s.ss_bounds_cont.getD (ctx.cont_dims.indexOf f) (0, 0)).2) ∧
      s2.ss_indices = updateMask s.ss_indices ctx.X (fun row => decide (nsplit ≤ row.getD f 0))) ∨
     (s2.ss_bounds_cont = s.ss_bounds_cont.set (ctx.cont_dims.indexOf f)
        ((s.ss_bounds_cont.getD (ctx.cont_dims.indexOf f) (0, 0)).1, nsplit) ∧
      s2.ss_indices = updateMask s.ss_indices ctx.X (fun row => decide (row.getD f 0 ≤ nsplit))))

/-- The data of a committed categorical shrink (boing_chooser.py:609-613). -/
def CatCommitSpec (ctx : ExtractCtx) (s s2 : ExtractState) : Prop :=
  ∃ f csplit,
    ((s.ss_bounds_cat.getD (ctx.cat_dims.indexOf f) ∅) ∩ csplit).card ≠
      (s.ss_bounds_cat.getD (ctx.cat_dims.indexOf f) ∅).card ∧
    ((s.ss_bounds_cat.getD (ctx.cat_dims.indexOf f) ∅) ∩ csplit).card ≠ 0 ∧
    ctx.num_min < countTrue s2.ss_indices ∧
    s2.ss_bounds_cont = s.ss_bounds_cont ∧
    ((s2.ss_bounds_cat = s.ss_bounds_cat.set (ctx.cat_dims.indexOf f)
        ((s.ss_bounds_cat.getD (ctx.cat_dims.indexOf f) ∅) ∩ csplit) ∧
      s2.ss_indices = updateMask s.ss_indices ctx.X (fun row => decide (row.getD f 0 ∈ csplit))) ∨
     (s2.ss_bounds_cat = s.ss_bounds_cat.set (ctx.cat_dims.indexOf f)
        ((s.ss_bounds_cat.getD (ctx.cat_dims.indexOf f) ∅) \ csplit) ∧
      s2.ss_indices = updateMask s.ss_indices ctx.X (fun row => decide (row.getD f 0 ∉ csplit))))

theorem stepTree_shape (ctx : ExtractCtx) (check : Bool) (s : ExtractState) (i : ℕ) :
    ((stepTree ctx check s i).ss_indices = s.ss_indices ∧
     (stepTree ctx check s i).ss_bounds_cont = s.ss_bounds_cont ∧
     (stepTree ctx check s i).ss_bounds_cat = s.ss_bounds_cat) ∨
    ContCommitSpec ctx s (stepTree ctx check s i) ∨
    CatCommitSpec ctx s (stepTree ctx check s i) := by
  rw [stepTree.eq_def]
  split
  · exact Or.inl ⟨rfl, rfl, rfl⟩
  split
  · exact Or.inl ⟨rfl, rfl, rfl⟩
  rename_i f nsplit csplit l r heq
  split
  · -- continuous feature
    rename_i hf
    split
    · rename_i hrange
      split
      · -- challenger on the right side
        split
        · rename_i hcount
          refine Or.inr (Or.inl ⟨f, nsplit, hf, hrange.1, hrange.2, ?_, rfl, Or.inl ⟨rfl, rfl⟩⟩)
          simpa [commitCont] using hcount
        · split
          · exact Or.inl ⟨rfl, rfl, rfl⟩
          · exact Or.inl ⟨rfl, rfl, rfl⟩
      · split
        · rename_i hcount
          refine Or.inr (Or.inl ⟨f, nsplit, hf, hrange.1, hrange.2, ?_, rfl, Or.inr ⟨rfl, rfl⟩⟩)
          simpa [commitCont] using hcount
        · split
          · exact Or.inl ⟨rfl, rfl, rfl⟩
          · exact Or.inl ⟨rfl, rfl, rfl⟩
    · exact Or.inl ⟨rfl, rfl, rfl⟩
  · -- categorical feature
    split
    · exact Or.inl ⟨rfl, rfl, rfl⟩
    split
    · exact Or.inl ⟨rfl, rfl, rfl⟩
    rename_i hcne hc0
    split
    · split
      · rename_i hcount
        refine Or.inr (Or.inr ⟨f, csplit, hcne, hc0, ?_, rfl, Or.inl ⟨rfl, rfl⟩⟩)
        simpa [commitCat] using hcount
      · split
        · exact Or.inl ⟨rfl, rfl, rfl⟩
        · exact Or.inl ⟨rfl, rfl, rfl⟩
    · split
      · rename_i hcount
        refine Or.inr (Or.inr ⟨f, csplit, hcne, hc0, ?_, rfl, Or.inr ⟨rfl, rfl⟩⟩)
        simpa [commitCat] using hcount
      · split
        · exact Or.inl ⟨rfl, rfl, rfl⟩
        · exact Or.inl ⟨rfl, rfl, rfl⟩

/-! ### Invariants of the traversal state -/

/-- Well-formedness of the state: the mask has one entry per row of `X`, the
continuous bounds one entry per continuous dimension, and the categorical
retained sets one entry per categorical dimension (with the `[()]`-placeholder
of the source, kept as `[∅]`, when there is none). -/
def lenOK (ctx : ExtractCtx) (s : ExtractState) : Prop :=
  s.ss_indices.length = ctx.X.length ∧
  s.ss_bounds_cont.length = ctx.cont_dims.length ∧
  (ctx.cat_dims = [] → s.ss_bounds_cat = [∅]) ∧
  (ctx.cat_dims ≠ [] → s.ss_bounds_cat.length = ctx.cat_dims.length)

/-- Every continuous bound is a subinterval of the corresponding full-space
bound. -/
def contOK (ctx : ExtractCtx) (s : ExtractState) : Prop :=
  ∀ i, i < ctx.cont_dims.length →
    (ctx.bounds.getD (ctx.cont_dims.getD i 0) (0, 0)).1 ≤ (s.ss_bounds_cont.getD i (0, 0)).1 ∧
    (s.ss_bounds_cont.getD i (0, 0)).2 ≤ (ctx.bounds.getD (ctx.cont_dims.getD i 0) (0, 0)).2

/-- Every categorical retained set is non-empty and a subset of the full
categorical domain. -/
def catOK (ctx : ExtractCtx) (s : ExtractState) : Prop :=
  ∀ i, i < ctx.cat_dims.length →
    (s.ss_bounds_cat.getD i ∅).Nonempty ∧
    s.ss_bounds_cat.getD i ∅ ⊆ catDomain (ctx.bounds.getD (ctx.cat_dims.getD i 0) (0, 0)).1

/-- The mask is true exactly on the rows inside the current region. -/
def exactOK (ctx : ExtractCtx) (s : ExtractState) : Prop :=
  ∀ j, j < ctx.X.length →
    (s.ss_indices.getD j false = true ↔
      inRegion s.ss_bounds_cont s.ss_bounds_cat ctx.cont_dims ctx.cat_dims (ctx.X.getD j []))

/-- The combined region invariant. -/
def InvA (ctx : ExtractCtx) (s : ExtractState) : Prop :=
  lenOK ctx s ∧ contOK ctx s ∧ catOK ctx s ∧ exactOK ctx s

/-- A committed categorical shrink can only happen at a genuine categorical
position: the retained set read by the commit is one of the `cat_dims`
entries. -/
theorem catCommit_mem (ctx : ExtractCtx) (s : ExtractState) {f : ℕ} {csplit : Finset ℚ}
    (hlen : lenOK ctx s)
    (hc0 : ((s.ss_bounds_cat.getD (ctx.cat_dims.indexOf f) ∅) ∩ csplit).card ≠ 0) :
    f ∈ ctx.cat_dims ∧ ctx.cat_dims.indexOf f < ctx.cat_dims.length := by
  have hcur : s.ss_bounds_cat.getD (ctx.cat_dims.indexOf f) ∅ ≠ ∅ := by
    intro h
    rw [h] at hc0
    simp at hc0
  by_cases hnil : ctx.cat_dims = []
  · exfalso
    have hs : s.ss_bounds_cat = [∅] := hlen.2.2.1 hnil
    rw [hs] at hcur
    rcases Nat.eq_zero_or_pos (ctx.cat_dims.indexOf f) with h0 | hpos
    · rw [h0] at hcur
      exact hcur rfl
    · rw [List.getD_eq_default] at hcur
      · exact hcur rfl
      · simpa using hpos
  · have hcl : s.ss_bounds_cat.length = ctx.cat_dims.length := hlen.2.2.2 hnil
    have hlt : ctx.cat_dims.indexOf f < s.ss_bounds_cat.length := by
      by_contra hge
      rw [List.getD_eq_default _ _ (le_of_not_lt hge)] at hcur
      exact hcur rfl
    rw [hcl] at hlt
    exact ⟨List.indexOf_lt_length.mp hlt, hlt⟩

theorem lenOK_step (ctx : ExtractCtx) (check : Bool) (s : ExtractState) (i : ℕ)
    (h : lenOK ctx s) : lenOK ctx (stepTree ctx check s i) := by
  rcases stepTree_shape ctx check s i with hsame | hcont | hcat
  · exact ⟨hsame.1 ▸ h.1, hsame.2.1 ▸ h.2.1,
      fun he => hsame.2.2 ▸ h.2.2.1 he, fun hne => hsame.2.2 ▸ h.2.2.2 hne⟩
  · obtain ⟨f, nsplit, _, _, _, _, hcat_eq, hcase⟩ := hcont
    have hmask : (stepTree ctx check s i).ss_indices.length = ctx.X.length := by
      rcases hcase with ⟨_, hm⟩ | ⟨_, hm⟩ <;>
        rw [hm, length_updateMask, h.1] <;> exact Nat.min_self _
    have hbc : (stepTree ctx check s i).ss_bounds_cont.length = ctx.cont_dims.length := by
      rcases hcase with ⟨hb, _⟩ | ⟨hb, _⟩ <;> rw [hb, List.length_set] <;> exact h.2.1
    exact ⟨hmask, hbc, fun he => hcat_eq ▸ h.2.2.1 he, fun hne => hcat_eq ▸ h.2.2.2 hne⟩
  · obtain ⟨f, csplit, hcne, hc0, _, hcont_eq, hcase⟩ := hcat
    have hmem := catCommit_mem ctx s h hc0
    have hnil : ctx.cat_dims ≠ [] := by
      intro he
      rw [he] at hmem
      simp at hmem
    have hmask : (stepTree ctx check s i).ss_indices.length = ctx.X.length := by
      rcases hcase with ⟨_, hm⟩ | ⟨_, hm⟩ <;>
        rw [hm, length_updateMask, h.1] <;> exact Nat.min_self _
    have hbc : (stepTree ctx check s i).ss_bounds_cat.length = ctx.cat_dims.length := by
      rcases hcase with ⟨hb, _⟩ | ⟨hb, _⟩ <;> rw [hb, List.length_set] <;> exact h.2.2.2 hnil
    exact ⟨hmask, hcont_eq ▸ h.2.1, fun he => absurd he hnil, fun _ => hbc⟩

theorem contOK_step (ctx : ExtractCtx) (check : Bool) (s : ExtractState) (i : ℕ)
    (hlen : lenOK ctx s) (h : contOK ctx s) : contOK ctx (stepTree ctx check s i) := by
  rcases stepTree_shape ctx check s i with hsame | hcont | hcat
  · intro k hk; rw [hsame.2.1]; exact h k hk
  · obtain ⟨f, nsplit, hf, hlo, hhi, _, _, hcase⟩ := hcont
    have hci : ctx.cont_dims.indexOf f < s.ss_bounds_cont.length := by
      rw [hlen.2.1]; exact List.indexOf_lt_length.mpr hf
    intro k hk
    rcases hcase with ⟨hb, _⟩ | ⟨hb, _⟩ <;> rw [hb] <;>
      by_cases hkci : ctx.cont_dims.indexOf f = k
    · subst hkci
      rw [getD_set_self _ _ _ _ hci]
      exact ⟨le_trans (h _ hk).1 hlo, (h _ hk).2⟩
    · rw [getD_set_ne _ _ _ _ _ hkci]; exact h k hk
    · subst hkci
      rw [getD_set_self _ _ _ _ hci]
      exact ⟨(h _ hk).1, le_trans hhi (h _ hk).2⟩
    · rw [getD_set_ne _ _ _ _ _ hkci]; exact h k hk
  · obtain ⟨f, csplit, _, _, _, hcont_eq, _⟩ := hcat
    intro k hk; rw [hcont_eq]; exact h k hk

theorem catOK_step (ctx : ExtractCtx) (check : Bool) (s : ExtractState) (i : ℕ)
    (hlen : lenOK ctx s) (h : catOK ctx s) : catOK ctx (stepTree ctx check s i) := by
  rcases stepTree_shape ctx check s i with hsame | hcont | hcat
  · intro k hk; rw [hsame.2.2]; exact h k hk
  · obtain ⟨f, nsplit, _, _, _, _, hcat_eq, _⟩ := hcont
    intro k hk; rw [hcat_eq]; exact h k hk
  · obtain ⟨f, csplit, hcne, hc0, _, _, hcase⟩ := hcat
    have hmem := catCommit_mem ctx s hlen hc0
    have hnil : ctx.cat_dims ≠ [] := by
      intro he
      rw [he] at hmem
      simp at hmem
    have hci : ctx.cat_dims.indexOf f < s.ss_bounds_cat.length := by
      rw [hlen.2.2.2 hnil]; exact hmem.2
    intro k hk
    rcases hcase with ⟨hb, _⟩ | ⟨hb, _⟩ <;> rw [hb] <;>
      by_cases hkci : ctx.cat_dims.indexOf f = k
    · subst hkci
      rw [getD_set_self _ _ _ _ hci]
      refine ⟨Finset.card_pos.mp (Nat.pos_of_ne_zero hc0), ?_⟩
      exact subset_trans (Finset.inter_subset_left) (h _ hk).2
    · rw [getD_set_ne _ _ _ _ _ hkci]; exact h k hk
    · subst hkci
      rw [getD_set_self _ _ _ _ hci]
      constructor
      · rw [Finset.sdiff_nonempty]
        intro hsub
        exact hcne (by rw [Finset.inter_eq_left.mpr hsub])
      · exact subset_trans (Finset.sdiff_subset) (h _ hk).2
    · rw [getD_set_ne _ _ _ _ _ hkci]; exact h k hk

theorem exactOK_step (ctx : ExtractCtx) (check : Bool) (s : ExtractState) (i : ℕ)
    (hlen : lenOK ctx s) (h : exactOK ctx s) : exactOK ctx (stepTree ctx check s i) := by
  rcases stepTree_shape ctx check s i with hsame | hcont | hcat
  · intro j hj
    rw [hsame.1, hsame.2.1, hsame.2.2]
    exact h j hj
  · obtain ⟨f, nsplit, hf, hlo, hhi, _, hcat_eq, hcase⟩ := hcont
    have hci : ctx.cont_dims.indexOf f < ctx.cont_dims.length := List.indexOf_lt_length.mpr hf
    have hcib : ctx.cont_dims.indexOf f < s.ss_bounds_cont.length := by
      rw [hlen.2.1]; exact hci
    have hgf : ctx.cont_dims.getD (ctx.cont_dims.indexOf f) 0 = f := getD_indexOf _ _ _ hf
    intro j hj
    have hjm : j < s.ss_indices.length := by rw [hlen.1]; exact hj
    have hIH := h j hj
    rcases hcase with ⟨hb, hm⟩ | ⟨hb, hm⟩
    · -- challenger side: [split_value, hi], mask nsplit ≤ X
      rw [hm, hb, hcat_eq, getD_updateMask _ _ _ j hjm hj, Bool.and_eq_true, decide_eq_true_eq]
      constructor
      · rintro ⟨hmj, hp⟩
        obtain ⟨hcontp, hcatp⟩ := hIH.mp hmj
        refine ⟨fun k hk => ?_, hcatp⟩
        by_cases hkci : ctx.cont_dims.indexOf f = k
        · subst hkci
          rw [getD_set_self _ _ _ _ hcib, hgf]
          have hold := hcontp _ hci
          rw [hgf] at hold
          exact ⟨hp, hold.2⟩
        · rw [getD_set_ne _ _ _ _ _ hkci]
          exact hcontp k hk
      · rintro ⟨hcontp, hcatp⟩
        have hatci := hcontp _ hci
        rw [getD_set_self _ _ _ _ hcib, hgf] at hatci
        refine ⟨hIH.mpr ⟨fun k hk => ?_, hcatp⟩, hatci.1⟩
        by_cases hkci : ctx.cont_dims.indexOf f = k
        · subst hkci
          rw [hgf]
          exact ⟨le_trans hlo hatci.1, hatci.2⟩
        · have hother := hcontp k hk
          rw [getD_set_ne _ _ _ _ _ hkci] at hother
          exact hother
    · -- other side: [lo, split_value], mask X ≤ nsplit
      rw [hm, hb, hcat_eq, getD_updateMask _ _ _ j hjm hj, Bool.and_eq_true, decide_eq_true_eq]
      constructor
      · rintro ⟨hmj, hp⟩
        obtain ⟨hcontp, hcatp⟩ := hIH.mp hmj
        refine ⟨fun k hk => ?_, hcatp⟩
        by_cases hkci : ctx.cont_dims.indexOf f = k
        · subst hkci
          rw [getD_set_self _ _ _ _ hcib, hgf]
          have hold := hcontp _ hci
          rw [hgf] at hold
          exact ⟨hold.1, hp⟩
        · rw [getD_set_ne _ _ _ _ _ hkci]
          exact hcontp k hk
      · rintro ⟨hcontp, hcatp⟩
        have hatci := hcontp _ hci
        rw [getD_set_self _ _ _ _ hcib, hgf] at hatci
        refine ⟨hIH.mpr ⟨fun k hk => ?_, hcatp⟩, hatci.2⟩
        by_cases hkci : ctx.cont_dims.indexOf f = k
        · subst hkci
          rw [hgf]
          exact ⟨hatci.1, le_trans hatci.2 hhi⟩
        · have hother := hcontp k hk
          rw [getD_set_ne _ _ _ _ _ hkci] at hother
          exact hother
  · obtain ⟨f, csplit, hcne, hc0, _, hcont_eq, hcase⟩ := hcat
    have hmem := catCommit_mem ctx s hlen hc0
    have hnil : ctx.cat_dims ≠ [] := by
      intro he
      rw [he] at hmem
      simp at hmem
    have hcib : ctx.cat_dims.indexOf f < s.ss_bounds_cat.length := by
      rw [hlen.2.2.2 hnil]; exact hmem.2
    have hgf : ctx.cat_dims.getD (ctx.cat_dims.indexOf f) 0 = f := getD_indexOf _ _ _ hmem.1
    intro j hj
    have hjm : j < s.ss_indices.length := by rw [hlen.1]; exact hj
    have hIH := h j hj
    rcases hcase with ⟨hb, hm⟩ | ⟨hb, hm⟩
    · -- challenger inside the intersection: retained' = cur ∩ split
      rw [hm, hb, hcont_eq, getD_updateMask _ _ _ j hjm hj, Bool.and_eq_true, decide_eq_true_eq]
      constructor
      · rintro ⟨hmj, hp⟩
        obtain ⟨hcontp, hcatp⟩ := hIH.mp hmj
        refine ⟨hcontp, fun k hk => ?_⟩
        by_cases hkci : ctx.cat_dims.indexOf f = k
        · subst hkci
          rw [getD_set_self _ _ _ _ hcib, hgf]
          have hold := hcatp _ hmem.2
          rw [hgf] at hold
          exact Finset.mem_inter.mpr ⟨hold, hp⟩
        · rw [getD_set_ne _ _ _ _ _ hkci]
          exact hcatp k hk
      · rintro ⟨hcontp, hcatp⟩
        have hatci := hcatp _ hmem.2
        rw [getD_set_self _ _ _ _ hcib, hgf] at hatci
        have hin := Finset.mem_inter.mp hatci
        refine ⟨hIH.mpr ⟨hcontp, fun k hk => ?_⟩, hin.2⟩
        by_cases hkci : ctx.cat_dims.indexOf f = k
        · subst hkci
          rw [hgf]
          exact hin.1
        · have hother := hcatp k hk
          rw [getD_set_ne _ _ _ _ _ hkci] at hother
          exact hother
    · -- challenger outside the intersection: retained' = cur \ split
      rw [hm, hb, hcont_eq, getD_updateMask _ _ _ j hjm hj, Bool.and_eq_true, decide_eq_true_eq]
      constructor
      · rintro ⟨hmj, hp⟩
        obtain ⟨hcontp, hcatp⟩ := hIH.mp hmj
        refine ⟨hcontp, fun k hk => ?_⟩
        by_cases hkci : ctx.cat_dims.indexOf f = k
        · subst hkci
          rw [getD_set_self _ _ _ _ hcib, hgf]
          have hold := hcatp _ hmem.2
          rw [hgf] at hold
          exact Finset.mem_sdiff.mpr ⟨hold, hp⟩
        · rw [getD_set_ne _ _ _ _ _ hkci]
          exact hcatp k hk
      · rintro ⟨hcontp, hcatp⟩
        have hatci := hcatp _ hmem.2
        rw [getD_set_self _ _ _ _ hcib, hgf] at hatci
        have hin := Finset.mem_sdiff.mp hatci
        refine ⟨hIH.mpr ⟨hcontp, fun k hk => ?_⟩, hin.2⟩
        by_cases hkci : ctx.cat_dims.indexOf f = k
        · subst hkci
          rw [hgf]
          exact hin.1
        · have hother := hcatp k hk
          rw [getD_set_ne _ _ _ _ _ hkci] at hother
          exact hother

/-- The membership count never drops to `min num_min |X|` or below: a shrink is
only committed while the tentative count still exceeds `num_min`. -/
theorem countMin_step (ctx : ExtractCtx) (check : Bool) (s : ExtractState) (i : ℕ)
    (h : min ctx.num_min ctx.X.length ≤ countTrue s.ss_indices) :
    min ctx.num_min ctx.X.length ≤ countTrue (stepTree ctx check s i).ss_indices := by
  rcases stepTree_shape ctx check s i with hsame | hcont | hcat
  · rw [hsame.1]; exact h
  · obtain ⟨_, _, _, _, _, hcount, _, _⟩ := hcont
    exact le_of_lt (lt_of_le_of_lt (min_le_left _ _) hcount)
  · obtain ⟨_, _, _, _, hcount, _, _⟩ := hcat
    exact le_of_lt (lt_of_le_of_lt (min_le_left _ _) hcount)

/-- When `num_min ≥ |X|` no shrink is ever committed: mask and both bounds are
left untouched by every step. -/
theorem frozen_step (ctx : ExtractCtx) (check : Bool) (s : ExtractState) (i : ℕ)
    (hge : ctx.X.length ≤ ctx.num_min) :
    (stepTree ctx check s i).ss_indices = s.ss_indices ∧
    (stepTree ctx check s i).ss_bounds_cont = s.ss_bounds_cont ∧
    (stepTree ctx check s i).ss_bounds_cat = s.ss_bounds_cat := by
  rcases stepTree_shape ctx check s i with hsame | hcont | hcat
  · exact hsame
  · exfalso
    obtain ⟨f, nsplit, _, _, _, hcount, _, hcase⟩ := hcont
    rcases hcase with ⟨_, hm⟩ | ⟨_, hm⟩ <;> rw [hm] at hcount <;>
      exact absurd hcount (not_lt.mpr (le_trans (countTrue_updateMask_le_X _ _ _) hge))
  · exfalso
    obtain ⟨f, csplit, _, _, hcount, _, hcase⟩ := hcat
    rcases hcase with ⟨_, hm⟩ | ⟨_, hm⟩ <;> rw [hm] at hcount <;>
      exact absurd hcount (not_lt.mpr (le_trans (countTrue_updateMask_le_X _ _ _) hge))

/-- Each step only narrows the mask pointwise. -/
theorem narrow_step (ctx : ExtractCtx) (check : Bool) (s : ExtractState) (i j : ℕ)
    (h : (stepTree ctx check s i).ss_indices.getD j false = true) :
    s.ss_indices.getD j false = true := by
  rcases stepTree_shape ctx check s i with hsame | hcont | hcat
  · rw [hsame.1] at h; exact h
  · obtain ⟨f, nsplit, _, _, _, _, _, hcase⟩ := hcont
    rcases hcase with ⟨_, hm⟩ | ⟨_, hm⟩ <;> rw [hm] at h <;> exact updateMask_true h
  · obtain ⟨f, csplit, _, _, _, _, hcase⟩ := hcat
    rcases hcase with ⟨_, hm⟩ | ⟨_, hm⟩ <;> rw [hm] at h <;> exact updateMask_true h

/-- Each step only lowers the membership count. -/
theorem countLe_step (ctx : ExtractCtx) (check : Bool) (s : ExtractState) (i : ℕ) :
    countTrue (stepTree ctx check s i).ss_indices ≤ countTrue s.ss_indices := by
  rcases stepTree_shape ctx check s i with hsame | hcont | hcat
  · rw [hsame.1]
  · obtain ⟨f, nsplit, _, _, _, _, _, hcase⟩ := hcont
    rcases hcase with ⟨_, hm⟩ | ⟨_, hm⟩ <;> rw [hm] <;> exact countTrue_updateMask_le _ _ _
  · obtain ⟨f, csplit, _, _, _, _, hcase⟩ := hcat
    rcases hcase with ⟨_, hm⟩ | ⟨_, hm⟩ <;> rw [hm] <;> exact countTrue_updateMask_le _ _ _

/-! ### Lifting invariants through the passes -/

theorem traverse_preserve (ctx : ExtractCtx) (check : Bool) (P : ExtractState → Prop)
    (hstep : ∀ s i, P s → P (stepTree ctx check s i)) :
    ∀ (order : List ℕ) (s : ExtractState), P s → P (traverse_forest ctx check order s) := by
  intro order
  induction order with
  | nil => exact fun s h => h
  | cons i order ih =>
    intro s h
    exact ih (stepTree ctx check s i) (hstep s i h)

theorem runPasses_preserve (ctx : ExtractCtx) (check : Bool) (P : ExtractState → Prop)
    (hstep : ∀ s i, P s → P (stepTree ctx check s i)) :
    ∀ (fuel : ℕ) (orders : ℕ → List ℕ) (s : ExtractState),
      P s → P (runPasses ctx check fuel orders s) := by
  intro fuel
  induction fuel with
  | zero => exact fun _ s h => h
  | succ fuel ih =>
    intro orders s h
    rw [runPasses]
    split
    · exact ih _ _ (traverse_preserve ctx check P hstep (orders 0) s h)
    · exact h

theorem extraction_preserve (ctx : ExtractCtx) (P : ExtractState → Prop)
    (hstep : ∀ check s i, P s → P (stepTree ctx check s i))
    (hreset : ∀ s b, P s → P { s with stop_update := b })
    (orders : ℕ → List ℕ) (fuel1 fuel2 : ℕ) (hinit : P (initState ctx)) :
    P (subspace_extraction ctx orders fuel1 fuel2) := by
  rw [subspace_extraction]
  have h1 := runPasses_preserve ctx true P (hstep true) fuel1 orders (initState ctx) hinit
  split
  · exact runPasses_preserve ctx false P (hstep false) fuel2 _ _ (hreset _ _ h1)
  · exact h1

theorem narrow_traverse_aux (ctx : ExtractCtx) (check : Bool) :
    ∀ (order : List ℕ) (s : ExtractState) (j : ℕ),
      (traverse_forest ctx check order s).ss_indices.getD j false = true →
      s.ss_indices.getD j false = true := by
  intro order
  induction order with
  | nil => exact fun s j h => h
  | cons i order ih =>
    intro s j h
    exact narrow_step ctx check s i j (ih (stepTree ctx check s i) j h)

/-- The full extraction (second pass included) narrows the mask pointwise
relative to the state after the min-checked pass. -/
theorem narrow_runPasses (ctx : ExtractCtx) (check : Bool) :
    ∀ (fuel : ℕ) (orders : ℕ → List ℕ) (s : ExtractState) (j : ℕ),
      (runPasses ctx check fuel orders s).ss_indices.getD j false = true →
      s.ss_indices.getD j false = true := by
  intro fuel
  induction fuel with
  | zero => exact fun _ s j h => h
  | succ fuel ih =>
    intro orders s j h
    rw [runPasses] at h
    split at h
    · refine narrow_traverse_aux ctx check (orders 0) s j (ih _ _ _ h)
    · exact h

theorem countLe_traverse (ctx : ExtractCtx) (check : Bool) :
    ∀ (order : List ℕ) (s : ExtractState),
      countTrue (traverse_forest ctx check order s).ss_indices ≤ countTrue s.ss_indices := by
  intro order
  induction order with
  | nil => exact fun s => le_refl _
  | cons i order ih =>
    intro s
    exact le_trans (ih (stepTree ctx check s i)) (countLe_step ctx check s i)

theorem countLe_runPasses (ctx : ExtractCtx) (check : Bool) :
    ∀ (fuel : ℕ) (orders : ℕ → List ℕ) (s : ExtractState),
      countTrue (runPasses ctx check fuel orders s).ss_indices ≤ countTrue s.ss_indices := by
  intro fuel
  induction fuel with
  | zero => exact fun _ s => le_refl _
  | succ fuel ih =>
    intro orders s
    rw [runPasses]
    split
    · exact le_trans (ih _ _) (countLe_traverse ctx check (orders 0) s)
    · exact le_refl _

/-! ### The invariants hold initially -/

theorem getD_map {α β : Type} (l : List α) (g : α → β) (i : ℕ) (d : β) (da : α)
    (h : i < l.length) : (l.map g).getD i d = g (l.getD i da) := by
  rw [List.getD_eq_getElem _ _ (by simpa using h), List.getD_eq_getElem _ _ h]
  simp

theorem getD_replicate {α : Type} (n i : ℕ) (a d : α) (h : i < n) :
    (List.replicate n a).getD i d = a := by
  rw [List.getD_eq_getElem _ _ (by simpa using h)]
  exact List.getElem_replicate a _

theorem getD_mem {α : Type} (l : List α) (i : ℕ) (d : α) (h : i < l.length) :
    l.getD i d ∈ l := by
  rw [List.getD_eq_getElem _ _ h]
  exact List.getElem_mem _

theorem catDomain_nonempty {q : ℚ} (h : 0 < q) : (catDomain q).Nonempty := by
  apply Finset.Nonempty.image
  rw [Finset.nonempty_range_iff]
  have hc : 0 < Int.ceil q := Int.ceil_pos.mpr h
  omega

theorem lenOK_init (ctx : ExtractCtx) : lenOK ctx (initState ctx) := by
  refine ⟨by simp [initState], by simp [initState], fun he => ?_, fun hne => ?_⟩
  · simp [initState, he]
  · simp [initState, hne]

theorem contOK_init (ctx : ExtractCtx) : contOK ctx (initState ctx) := by
  intro i hi
  have : (initState ctx).ss_bounds_cont.getD i (0, 0) =
      ctx.bounds.getD (ctx.cont_dims.getD i 0) (0, 0) := by
    exact getD_map ctx.cont_dims _ i (0, 0) 0 hi
  rw [this]
  exact ⟨le_refl _, le_refl _⟩

theorem catOK_init (ctx : ExtractCtx)
    (hpos : ∀ d ∈ ctx.cat_dims, 0 < (ctx.bounds.getD d (0, 0)).1) :
    catOK ctx (initState ctx) := by
  intro i hi
  have hne : ctx.cat_dims ≠ [] := by
    intro he
    rw [he] at hi
    simp at hi
  have hcat : (initState ctx).ss_bounds_cat =
      ctx.cat_dims.map (fun d => catDomain (ctx.bounds.getD d (0, 0)).1) := by
    simp [initState, hne]
  rw [hcat, getD_map ctx.cat_dims _ i ∅ 0 hi]
  exact ⟨catDomain_nonempty (hpos _ (getD_mem _ _ _ hi)), subset_refl _⟩

theorem exactOK_init (ctx : ExtractCtx)
    (hrows : ∀ j, j < ctx.X.length →
      inRegion (initState ctx).ss_bounds_cont (initState ctx).ss_bounds_cat
        ctx.cont_dims ctx.cat_dims (ctx.X.getD j [])) :
    exactOK ctx (initState ctx) := by
  intro j hj
  have hmask : (initState ctx).ss_indices.getD j false = true := by
    simpa [initState] using getD_replicate ctx.X.length j true false hj
  rw [hmask]
  simp only [true_iff]
  exact hrows j hj

theorem countMin_init (ctx : ExtractCtx) :
    min ctx.num_min ctx.X.length ≤ countTrue (initState ctx).ss_indices := by
  have : countTrue (initState ctx).ss_indices = ctx.X.length := by
    simp [initState, countTrue]
  rw [this]
  exact min_le_right _ _

/-! ### Concrete extraction instances used as counterexamples and witnesses -/

/-- A forest consisting of a single leaf together with a data row lying outside
the full-space bounds (the row value 5 is outside `[0, 1]`). -/
def ctxRowOut : ExtractCtx where
  X := [[5]]
  challenger := [0]
  trees := [RTree.leaf]
  num_min := 0
  num_max := 10
  bounds := [(0, 1)]
  cont_dims := [0]
  cat_dims := []

/-- A single-leaf forest with three rows: nothing can ever shrink, so the
returned membership count stays at 3 whatever `num_max` is. -/
def ctxLeaf3 : ExtractCtx where
  X := [[mkRat 1 10], [mkRat 1 5], [mkRat 3 10]]
  challenger := [0]
  trees := [RTree.leaf]
  num_min := 1
  num_max := 2
  bounds := [(0, 1)]
  cont_dims := [0]
  cat_dims := []

/-- A two-level tree: the root split at 3/20 would leave only one point
(frozen in the min-checked pass), the inner split at 1/4 leaves two points, so
the max-count pass descends past the root and then commits a shrink. -/
def ctxDeep : ExtractCtx where
  X := [[mkRat 1 10], [mkRat 1 5], [mkRat 3 10], [mkRat 2 5]]
  challenger := [0]
  trees := [RTree.node 0 (mkRat 3 20) ∅ (RTree.node 0 (mkRat 1 4) ∅ RTree.leaf RTree.leaf)
    RTree.leaf]
  num_min := 1
  num_max := 2
  bounds := [(0, 1)]
  cont_dims := [0]
  cat_dims := []

/-- `num_min > num_max`, yet the root split at 1/2 keeps three points
(`> num_min = 2`), so the extractor does commit a shrink. -/
def ctxMinMax : ExtractCtx where
  X := [[mkRat 1 10], [mkRat 1 5], [mkRat 3 10], [mkRat 9 10], [mkRat 19 20]]
  challenger := [0]
  trees := [RTree.node 0 (mkRat 1 2) ∅ RTree.leaf RTree.leaf]
  num_min := 2
  num_max := 1
  bounds := [(0, 1)]
  cont_dims := [0]
  cat_dims := []

/-- Two one-split trees on different dimensions with `num_min = 2`: whichever
tree is visited first commits its shrink and blocks the other, so the shuffle
order changes the returned region. -/
def ctxOrder : ExtractCtx where
  X := [[mkRat 1 10, mkRat 1 10], [mkRat 1 5, mkRat 9 10], [mkRat 9 10, mkRat 1 5],
        [mkRat 3 10, mkRat 3 10], [mkRat 9 10, mkRat 9 10]]
  challenger := [0, 0]
  trees := [RTree.node 0 (mkRat 1 2) ∅ RTree.leaf RTree.leaf,
            RTree.node 1 (mkRat 1 2) ∅ RTree.leaf RTree.leaf]
  num_min := 2
  num_max := 1000
  bounds := [(0, 1), (0, 1)]
  cont_dims := [0, 1]
  cat_dims := []

/-- A mixed continuous/categorical space (3 categories on dimension 1) used to
instantiate the region invariant. -/
def ctxMixed : ExtractCtx where
  X := [[0, 0], [0, 1], [0, 2], [0, 1]]
  challenger := [0, 1]
  trees := [RTree.node 1 0 {1} RTree.leaf RTree.leaf]
  num_min := 1
  num_max := 1000
  bounds := [(0, 1), (3, 0)]
  cont_dims := [0]
  cat_dims := [1]

/-- A single-leaf forest with one in-bounds row, used to exercise theorems with
`num_min` at least the row count. -/
def ctxSmall : ExtractCtx where
  X := [[mkRat 1 2]]
  challenger := [0]
  trees := [RTree.leaf]
  num_min := 5
  num_max := 7
  bounds := [(0, 1)]
  cont_dims := [0]
  cat_dims := []

/-! ### Claim C1 -/

/-- C1, counterexample: for an `X` row outside the full-space bounds (allowed
by the claim's "any X"), the returned mask is true although the row does not
lie inside the returned continuous bounds, so the mask does not select exactly
the rows inside the returned region. -/
theorem C1_counterexample :
    (subspace_extraction ctxRowOut (fun _ => [0]) 3 3).ss_indices.getD 0 false = true ∧
    ¬ inRegion (subspace_extraction ctxRowOut (fun _ => [0]) 3 3).ss_bounds_cont
        (subspace_extraction ctxRowOut (fun _ => [0]) 3 3).ss_bounds_cat
        ctxRowOut.cont_dims ctxRowOut.cat_dims (ctxRowOut.X.getD 0 []) := by
  decide

/-- C1, amended: for every call whose categorical dimensions have a positive
number of categories and whose `X` rows all lie inside the full space, the
returned region satisfies the claimed invariants: every continuous interval is
a subinterval of the corresponding full-space bound, every categorical
retained set is non-empty and a subset of the full domain, and the returned
mask is true exactly on the rows of `X` inside the returned region. -/
theorem C1_region_invariants (ctx : ExtractCtx) (orders : ℕ → List ℕ) (fuel1 fuel2 : ℕ)
    (hpos : ∀ d ∈ ctx.cat_dims, 0 < (ctx.bounds.getD d (0, 0)).1)
    (hrows : ∀ j, j < ctx.X.length →
      inRegion (initState ctx).ss_bounds_cont (initState ctx).ss_bounds_cat
        ctx.cont_dims ctx.cat_dims (ctx.X.getD j [])) :
    contOK ctx (subspace_extraction ctx orders fuel1 fuel2) ∧
    catOK ctx (subspace_extraction ctx orders fuel1 fuel2) ∧
    exactOK ctx (subspace_extraction ctx orders fuel1 fuel2) := by
  have h := extraction_preserve ctx
    (fun s => lenOK ctx s ∧ contOK ctx s ∧ catOK ctx s ∧ exactOK ctx s)
    (fun check s i hs => ⟨lenOK_step ctx check s i hs.1,
      contOK_step ctx check s i hs.1 hs.2.1, catOK_step ctx check s i hs.1 hs.2.2.1,
      exactOK_step ctx check s i hs.1 hs.2.2.2⟩)
    (fun s b hs => hs) orders fuel1 fuel2
    ⟨lenOK_init ctx, contOK_init ctx, catOK_init ctx hpos, exactOK_init ctx hrows⟩
  exact h.2

/-- C1, witness for the amended theorem at a concrete mixed instance. -/
theorem C1_region_invariants_witness :
    contOK ctxMixed (subspace_extraction ctxMixed (fun _ => [0]) 3 3) ∧
    catOK ctxMixed (subspace_extraction ctxMixed (fun _ => [0]) 3 3) ∧
    exactOK ctxMixed (subspace_extraction ctxMixed (fun _ => [0]) 3 3) :=
  C1_region_invariants ctxMixed (fun _ => [0]) 3 3 (by decide) (by decide)

/-! ### Claim C2 -/

/-- C2 (confirmed): when `num_min` is at most the number of rows of `X` and the
membership count after the min-checked pass does not exceed `num_max` (so the
max-count pass is not triggered), the returned mask has at least `num_min` true
entries. -/
theorem C2_min_count (ctx : ExtractCtx) (orders : ℕ → List ℕ) (fuel1 fuel2 : ℕ)
    (hmin : ctx.num_min ≤ ctx.X.length)
    (hmax : countTrue (runPasses ctx true fuel1 orders (initState ctx)).ss_indices ≤ ctx.num_max) :
    ctx.num_min ≤ countTrue (subspace_extraction ctx orders fuel1 fuel2).ss_indices := by
  have hcount := runPasses_preserve ctx true
    (fun s => min ctx.num_min ctx.X.length ≤ countTrue s.ss_indices)
    (fun s i hs => countMin_step ctx true s i hs) fuel1 orders (initState ctx)
    (countMin_init ctx)
  rw [subspace_extraction, if_neg (not_lt.mpr hmax)]
  rw [min_eq_left hmin] at hcount
  exact hcount

/-- C2, witness at a concrete instance. -/
theorem C2_min_count_witness :
    ctxLeaf3.num_min ≤ countTrue (subspace_extraction
      { ctxLeaf3 with num_max := 5 } (fun _ => [0]) 3 3).ss_indices :=
  C2_min_count { ctxLeaf3 with num_max := 5 } (fun _ => [0]) 3 3 (by decide) (by decide)

/-! ### Claim C3 -/

/-- C3, counterexample: a single-leaf forest with `num_min = 1 ≤ |X| = 3` and
`num_max = 2`: the min-checked pass ends with 3 member points (`> num_max`), the
max-count pass runs, and the returned mask still has 3 true entries, exceeding
`num_max`. -/
theorem C3_counterexample :
    ctxLeaf3.num_min ≤ ctxLeaf3.X.length ∧
    ctxLeaf3.num_max <
      countTrue (runPasses ctxLeaf3 true 3 (fun _ => [0]) (initState ctxLeaf3)).ss_indices ∧
    ctxLeaf3.num_max < countTrue (subspace_extraction ctxLeaf3 (fun _ => [0]) 3 3).ss_indices := by
  decide

/-- C3, amended: the max-count pass never increases the membership count (the
returned count is at most the count after the min-checked pass), but no upper
bound by `num_max` is guaranteed. -/
theorem C3_mask_only_narrows (ctx : ExtractCtx) (orders : ℕ → List ℕ) (fuel1 fuel2 : ℕ) :
    countTrue (subspace_extraction ctx orders fuel1 fuel2).ss_indices ≤
      countTrue (runPasses ctx true fuel1 orders (initState ctx)).ss_indices := by
  rw [subspace_extraction]
  split
  · exact countLe_runPasses ctx false fuel2 _ _
  · exact le_refl _

/-! ### Claim C4 -/

/-- C4, counterexample: in `ctxDeep` the min-checked pass ends with the
full-space bound `[(0, 1)]` and 4 member points (`> num_max = 2`); the
max-count pass then descends past the root and commits the inner split,
returning the strictly smaller stored bound `[(0, 1/4)]`.  The stored
geometric region is therefore modified by the second pass. -/
theorem C4_counterexample :
    (runPasses ctxDeep true 3 (fun _ => [0]) (initState ctxDeep)).ss_bounds_cont = [(0, 1)] ∧
    ctxDeep.num_max <
      countTrue (runPasses ctxDeep true 3 (fun _ => [0]) (initState ctxDeep)).ss_indices ∧
    (subspace_extraction ctxDeep (fun _ => [0]) 3 3).ss_bounds_cont = [(0, mkRat 1 4)] := by
  decide

/-- C4, amended: a step of the `check_num_min=False` pass narrows the mask
pointwise, and it leaves the stored bounds unchanged except when the tentative
count still exceeds `num_min`, in which case it commits the shrink exactly as
the first pass does. -/
theorem C4_second_pass_frame (ctx : ExtractCtx) (s : ExtractState) (i j : ℕ) :
    ((stepTree ctx false s i).ss_indices.getD j false = true →
      s.ss_indices.getD j false = true) ∧
    (((stepTree ctx false s i).ss_bounds_cont = s.ss_bounds_cont ∧
      (stepTree ctx false s i).ss_bounds_cat = s.ss_bounds_cat) ∨
     ctx.num_min < countTrue (stepTree ctx false s i).ss_indices) := by
  refine ⟨narrow_step ctx false s i j, ?_⟩
  rcases stepTree_shape ctx false s i with hsame | hcont | hcat
  · exact Or.inl ⟨hsame.2.1, hsame.2.2⟩
  · obtain ⟨_, _, _, _, _, hcount, _, _⟩ := hcont
    exact Or.inr hcount
  · obtain ⟨_, _, _, _, hcount, _, _⟩ := hcat
    exact Or.inr hcount

/-- C4, witness for the amended theorem: a concrete no-shrink advance of the
max-count pass keeps the (all-true) mask entry. -/
theorem C4_second_pass_frame_witness :
    (initState ctxDeep).ss_indices.getD 0 false = true :=
  (C4_second_pass_frame ctxDeep (initState ctxDeep) 0 0).1 (by decide)

/-! ### Claim C5 -/

/-- C5, counterexample: with `num_min = 2 > num_max = 1` but `num_min` smaller
than the row count, the extractor still commits a shrink: the returned
continuous bounds differ from the full-space bounds. -/
theorem C5_counterexample :
    ctxMinMax.num_max < ctxMinMax.num_min ∧
    (subspace_extraction ctxMinMax (fun _ => [0]) 3 3).ss_bounds_cont ≠
      ctxMinMax.cont_dims.map (fun d => ctxMinMax.bounds.getD d (0, 0)) := by
  decide

/-- C5, amended: the extractor never raises (it is a total function), and it
returns the full-space region with the all-true mask precisely under the
degradation condition `num_min ≥ |X|` (not under `num_min > num_max`). -/
theorem C5_full_region (ctx : ExtractCtx) (orders : ℕ → List ℕ) (fuel1 fuel2 : ℕ)
    (hge : ctx.X.length ≤ ctx.num_min) :
    (subspace_extraction ctx orders fuel1 fuel2).ss_bounds_cont =
      (initState ctx).ss_bounds_cont ∧
    (subspace_extraction ctx orders fuel1 fuel2).ss_bounds_cat =
      (initState ctx).ss_bounds_cat ∧
    (subspace_extraction ctx orders fuel1 fuel2).ss_indices =
      List.replicate ctx.X.length true := by
  have h := extraction_preserve ctx
    (fun s => s.ss_indices = (initState ctx).ss_indices ∧
      s.ss_bounds_cont = (initState ctx).ss_bounds_cont ∧
      s.ss_bounds_cat = (initState ctx).ss_bounds_cat)
    (fun check s i hs => by
      obtain ⟨h1, h2, h3⟩ := frozen_step ctx check s i hge
      exact ⟨h1.trans hs.1, h2.trans hs.2.1, h3.trans hs.2.2⟩)
    (fun s b hs => hs) orders fuel1 fuel2 ⟨rfl, rfl, rfl⟩
  exact ⟨h.2.1, h.2.2, h.1⟩

/-- C5, witness for the amended theorem. -/
theorem C5_full_region_witness :
    (subspace_extraction ctxSmall (fun _ => [0]) 3 3).ss_bounds_cont =
      (initState ctxSmall).ss_bounds_cont ∧
    (subspace_extraction ctxSmall (fun _ => [0]) 3 3).ss_bounds_cat =
      (initState ctxSmall).ss_bounds_cat ∧
    (subspace_extraction ctxSmall (fun _ => [0]) 3 3).ss_indices =
      List.replicate ctxSmall.X.length true :=
  C5_full_region ctxSmall (fun _ => [0]) 3 3 (by decide)

/-! ### Claim C8 -/

/-- C8, counterexample: two extraction calls that agree on every input owned by
the chooser (data, challenger, forest, point-count bounds, dimensions) but
receive different tree-visitation shuffles return different regions.  In the
source the shuffle is drawn from the global `np.random` generator
(boing_chooser.py:548,572), not from the chooser's seeded `rng` member, so two
runs with the same seeded `rng` and history need not produce identical
regions. -/
theorem C8_counterexample :
    (subspace_extraction ctxOrder (fun _ => [0, 1]) 5 5).ss_bounds_cont ≠
      (subspace_extraction ctxOrder (fun _ => [1, 0]) 5 5).ss_bounds_cont := by
  decide

/-- C8, amended: the extraction is deterministic once the shuffle orders are
fixed: runs agreeing on the inputs and on the (globally drawn) per-pass
visitation orders return identical results; reproducibility therefore requires
seeding the global generator as well, not only the chooser's `rng`. -/
theorem C8_determinism_given_orders (ctx : ExtractCtx) (orders1 orders2 : ℕ → List ℕ)
    (fuel1 fuel2 : ℕ) (h : ∀ k, orders1 k = orders2 k) :
    subspace_extraction ctx orders1 fuel1 fuel2 = subspace_extraction ctx orders2 fuel1 fuel2 := by
  have he : orders1 = orders2 := funext h
  rw [he]

/-- C8, witness for the amended theorem. -/
theorem C8_determinism_given_orders_witness :
    subspace_extraction ctxOrder (fun _ => [0, 1]) 5 5 =
      subspace_extraction ctxOrder (fun _ => List.take 2 [0, 1, 5]) 5 5 :=
  C8_determinism_given_orders ctxOrder (fun _ => [0, 1]) (fun _ => List.take 2 [0, 1, 5]) 5 5
    (fun _ => rfl)

/-! ### The switching step of `BOinGChooser.choose_next`

Model of the TuRBO-exhausted branch (boing_chooser.py:254-298), entered when
`self.run_TuRBO` holds and `self.turbo_optimizer.length <
self.turbo_optimizer.length_min`. -/

/-- The switching fields of the chooser (`run_TuRBO`, `failcount_BOinG`,
`failcount_TurBO` set up in `__init__`, `optimal_value` / `optimal_config`
initialised to `np.inf` / `None` and updated in `choose_next`). -/
structure SwitchState : Type where
  run_TuRBO : Bool
  failcount_BOinG : ℤ
  failcount_TurBO : ℤ
  optimal_value : ℚ
  optimal_config : List ℚ

/-- The per-trial inputs of the exhausted branch: `optimal_turbo` is
`np.min(self.turbo_optimizer.ss_y)` (line 255), `Y_raw`/`X` the collected
history, `rand_value` the draw `self.rng.random()` (line 286), and
`ss_threshold` the constant `0.1 ** num_hyperparameters` (line 143). -/
structure TurboTrialInput : Type where
  optimal_turbo : ℚ
  Y_raw : List ℚ
  X : List (List ℚ)
  rand_value : ℚ
  ss_threshold : ℚ

/-- How the exhausted branch ends: `restartReturn` is the
`restart_TuRBOinG(...)` call followed by `return generate_challengers()`
(lines 293-294); `observeReturn` is the fall-through
`add_new_observations(...)` followed by `return generate_challengers()`
(lines 296-298).  Both return trust-region candidates. -/
inductive TurboTrialAction : Type
  | restartReturn : TurboTrialAction
  | observeReturn : TurboTrialAction
deriving DecidableEq

/-- `np.argmin`: index of the first minimal entry. -/
def idxminAux : List ℚ → ℚ → ℕ → ℕ → ℕ
  | [], _, _, best => best
  | q :: qs, bv, i, best =>
    if q < bv then idxminAux qs q (i + 1) i else idxminAux qs bv (i + 1) best

/-- `np.argmin` over a list (0 on the empty list, on which numpy raises). -/
def idxmin : List ℚ → ℕ
  | [] => 0
  | q :: qs => idxminAux qs q 1 0

/-- The body of the `if self.turbo_optimizer.length <
self.turbo_optimizer.length_min:` block of `choose_next`
(boing_chooser.py:254-298), given that the branch is entered.  Mirrors the
source line by line: `increment` (line 259); on improvement the new incumbent
is taken from `np.argmin(Y_raw)` and `self.optimal_value` is overwritten
before the threshold test (lines 262-272); the qualifying test decrements
`failcount_TurBO`, halves `failcount_BOinG` (Python floor division) and clears
`run_TuRBO` (lines 273-277); otherwise `failcount_TurBO` is incremented
(line 281); then `prob_to_BOinG = 0.1 * failcount_TurBO` is compared against
the uniform draw (lines 284-288): below it, `failcount_BOinG` is halved and
`run_TuRBO` cleared and control falls through to line 296; otherwise the
optimizer is restarted and its challengers returned (lines 293-294). -/
def turboExhaustedStep (inp : TurboTrialInput) (s : SwitchState) :
    SwitchState × TurboTrialAction :=
  let increment := inp.optimal_turbo - s.optimal_value
  let s1 :=
    if increment < 0 then
      let mi := idxmin inp.Y_raw
      let newv := inp.Y_raw.getD mi 0
      let cfg_diff := List.zipWith (fun a b => a - b) (inp.X.getD mi []) s.optimal_config
      if increment < -(1/1000) * |newv| ∨ inp.ss_threshold ≤ |cfg_diff.prod| then
        { s with
          optimal_value := newv
          optimal_config := inp.X.getD mi []
          failcount_TurBO := s.failcount_TurBO - 1
          failcount_BOinG := Int.fdiv s.failcount_BOinG 2
          run_TuRBO := false }
      else
        { s with optimal_value := newv, optimal_config := inp.X.getD mi [] }
    else
      { s with failcount_TurBO := s.failcount_TurBO + 1 }
  if inp.rand_value < (1/10) * (s1.failcount_TurBO : ℚ) then
    ({ s1 with failcount_BOinG := Int.fdiv s1.failcount_BOinG 2, run_TuRBO := false },
      TurboTrialAction.observeReturn)
  else
    (s1, TurboTrialAction.restartReturn)

/-! ### Claim C6 -/

/-- Concrete switching state for the C6 counterexample: the previous best value
is 1000 and the previous best point is the origin. -/
def stPrevBest : SwitchState where
  run_TuRBO := true
  failcount_BOinG := 4
  failcount_TurBO := 0
  optimal_value := 1000
  optimal_config := [0]

/-- Concrete trial for the C6 counterexample: TuRBO's best is 999.5 (a tiny
improvement over 1000), but the history minimum is 1/10, so the relative test
against the updated best value fires although the test against the previous
best value would not. -/
def inpPrevBest : TurboTrialInput where
  optimal_turbo := mkRat 1999 2
  Y_raw := [mkRat 1 10]
  X := [[mkRat 1 20]]
  rand_value := 1
  ss_threshold := mkRat 1 10

/-- C6, counterexample: the trust-region optimizer is exhausted and the
improvement is negative; the claim's qualifying test — relative improvement
measured against the previous best value, or coordinate-difference product at
least `ss_threshold` — is false, yet the code transitions to region search and
halves `failcount_BOinG`, because line 270 of the source compares against the
already-updated `self.optimal_value` (the new history minimum), not the
previous best. -/
theorem C6_counterexample :
    inpPrevBest.optimal_turbo - stPrevBest.optimal_value < 0 ∧
    ¬ (inpPrevBest.optimal_turbo - stPrevBest.optimal_value <
        -(1/1000) * |stPrevBest.optimal_value| ∨
       inpPrevBest.ss_threshold ≤
        |(List.zipWith (fun a b => a - b) (inpPrevBest.X.getD (idxmin inpPrevBest.Y_raw) [])
            stPrevBest.optimal_config).prod|) ∧
    (turboExhaustedStep inpPrevBest stPrevBest).1.run_TuRBO = false ∧
    (turboExhaustedStep inpPrevBest stPrevBest).1.failcount_BOinG =
      Int.fdiv stPrevBest.failcount_BOinG 2 := by
  have h1 : inpPrevBest.optimal_turbo - stPrevBest.optimal_value < 0 := by
    norm_num [inpPrevBest, stPrevBest]
  have h2 : ¬ (inpPrevBest.optimal_turbo - stPrevBest.optimal_value <
      -(1/1000) * |stPrevBest.optimal_value| ∨
     inpPrevBest.ss_threshold ≤
      |(List.zipWith (fun a b => a - b) (inpPrevBest.X.getD (idxmin inpPrevBest.Y_raw) [])
          stPrevBest.optimal_config).prod|) := by
    norm_num [inpPrevBest, stPrevBest, idxmin, idxminAux, abs_of_pos]
  have h3 : turboExhaustedStep inpPrevBest stPrevBest =
      ({ stPrevBest with
          optimal_value := mkRat 1 10
          optimal_config := [mkRat 1 20]
          failcount_TurBO := -1
          failcount_BOinG := 2
          run_TuRBO := false }, TurboTrialAction.restartReturn) := by
    rw [turboExhaustedStep]
    rw [if_pos h1]
    rw [if_pos (show inpPrevBest.optimal_turbo - stPrevBest.optimal_value <
        -(1/1000) * |inpPrevBest.Y_raw.getD (idxmin inpPrevBest.Y_raw) 0| ∨
        inpPrevBest.ss_threshold ≤
          |(List.zipWith (fun a b => a - b) (inpPrevBest.X.getD (idxmin inpPrevBest.Y_raw) [])
            stPrevBest.optimal_config).prod| by
      left
      norm_num [inpPrevBest, stPrevBest, idxmin, idxminAux, abs_of_pos])]
    rw [if_neg (show ¬ inpPrevBest.rand_value <
        (1/10) * (((stPrevBest.failcount_TurBO - 1) : ℤ) : ℚ) by
      norm_num [inpPrevBest, stPrevBest])]
    refine Prod.ext ?_ rfl
    norm_num [inpPrevBest, stPrevBest, idxmin, idxminAux]
    decide
  exact ⟨h1, h2, by rw [h3], by rw [h3]; decide⟩

/-- C6, amended: in an exhausted trial with negative improvement, the chooser
ends with `run_TuRBO = False` (a transition to region search) exactly when
either the qualifying test of line 269-272 fires — with the relative threshold
taken against the updated best value, the minimum of `Y_raw` — or the
subsequent random draw falls below `0.1 × failcount_TurBO` (as updated this
trial); `failcount_BOinG` is halved at each of these events. -/
theorem C6_switch_characterization (inp : TurboTrialInput) (s : SwitchState)
    (hrun : s.run_TuRBO = true) (hneg : inp.optimal_turbo - s.optimal_value < 0) :
    ((turboExhaustedStep inp s).1.run_TuRBO = false ↔
      (inp.optimal_turbo - s.optimal_value <
          -(1/1000) * |inp.Y_raw.getD (idxmin inp.Y_raw) 0| ∨
        inp.ss_threshold ≤
          |(List.zipWith (fun a b => a - b) (inp.X.getD (idxmin inp.Y_raw) [])
              s.optimal_config).prod| ∨
        inp.rand_value < (1/10) * ((turboExhaustedStep inp s).1.failcount_TurBO : ℚ))) := by
  rw [turboExhaustedStep]
  rw [if_pos hneg]
  by_cases hq : inp.optimal_turbo - s.optimal_value <
      -(1/1000) * |inp.Y_raw.getD (idxmin inp.Y_raw) 0| ∨
      inp.ss_threshold ≤
        |(List.zipWith (fun a b => a - b) (inp.X.getD (idxmin inp.Y_raw) [])
            s.optimal_config).prod|
  · rw [if_pos hq]
    by_cases hr : inp.rand_value < (1/10) * (((s.failcount_TurBO - 1) : ℤ) : ℚ)
    · rw [if_pos hr]
      simp only [true_iff]
      tauto
    · rw [if_neg hr]
      simp only [true_iff]
      tauto
  · rw [if_neg hq]
    by_cases hr : inp.rand_value < (1/10) * ((s.failcount_TurBO : ℤ) : ℚ)
    · rw [if_pos hr]
      simp only [true_iff]
      exact Or.inr (Or.inr hr)
    · rw [if_neg hr]
      constructor
      · intro hfalse
        rw [hrun] at hfalse
        exact absurd hfalse (by simp)
      · intro hdisj
        rcases hdisj with h | h | h
        · exact absurd (Or.inl h) hq
        · exact absurd (Or.inr h) hq
        · exact absurd h hr

/-- C6, witness for the amended theorem: a concrete exhausted trial in which
the qualifying test fires. -/
theorem C6_switch_characterization_witness :
    ((turboExhaustedStep inpPrevBest stPrevBest).1.run_TuRBO = false ↔
      (inpPrevBest.optimal_turbo - stPrevBest.optimal_value <
          -(1/1000) * |inpPrevBest.Y_raw.getD (idxmin inpPrevBest.Y_raw) 0| ∨
        inpPrevBest.ss_threshold ≤
          |(List.zipWith (fun a b => a - b) (inpPrevBest.X.getD (idxmin inpPrevBest.Y_raw) [])
              stPrevBest.optimal_config).prod| ∨
        inpPrevBest.rand_value <
          (1/10) * ((turboExhaustedStep inpPrevBest stPrevBest).1.failcount_TurBO : ℚ))) :=
  C6_switch_characterization inpPrevBest stPrevBest (by norm_num [stPrevBest])
    (by norm_num [inpPrevBest, stPrevBest])

/-! ### Claim C7 -/

/-- Concrete switching state for the C7 counterexample. -/
def stQual : SwitchState where
  run_TuRBO := true
  failcount_BOinG := 4
  failcount_TurBO := 0
  optimal_value := 10
  optimal_config := [0]

/-- Concrete trial for the C7 counterexample: the improvement is large and the
new best point is far from the old one, so the qualifying test fires; the
random draw 1/2 is not below `0.1 × failcount_TurBO = -0.1`. -/
def inpQual : TurboTrialInput where
  optimal_turbo := 5
  Y_raw := [5]
  X := [[1]]
  rand_value := mkRat 1 2
  ss_threshold := mkRat 1 10

/-- C7, counterexample: a trial in which the qualifying-improvement test does
transition the chooser to region search (`run_TuRBO` becomes false) still
draws, restarts the trust-region controller (`restart_TuRBOinG`, line 293) and
returns trust-region candidates (line 294), contradicting the claim that a
transitioned trial never restarts the controller nor returns trust-region
candidates. -/
theorem C7_counterexample :
    inpQual.optimal_turbo - stQual.optimal_value < 0 ∧
    (inpQual.optimal_turbo - stQual.optimal_value <
        -(1/1000) * |inpQual.Y_raw.getD (idxmin inpQual.Y_raw) 0| ∨
      inpQual.ss_threshold ≤
        |(List.zipWith (fun a b => a - b) (inpQual.X.getD (idxmin inpQual.Y_raw) [])
            stQual.optimal_config).prod|) ∧
    (turboExhaustedStep inpQual stQual).1.run_TuRBO = false ∧
    (turboExhaustedStep inpQual stQual).2 = TurboTrialAction.restartReturn := by
  have h1 : inpQual.optimal_turbo - stQual.optimal_value < 0 := by
    norm_num [inpQual, stQual]
  have hq : inpQual.optimal_turbo - stQual.optimal_value <
      -(1/1000) * |inpQual.Y_raw.getD (idxmin inpQual.Y_raw) 0| ∨
      inpQual.ss_threshold ≤
        |(List.zipWith (fun a b => a - b) (inpQual.X.getD (idxmin inpQual.Y_raw) [])
            stQual.optimal_config).prod| := by
    left
    norm_num [inpQual, stQual, idxmin, idxminAux, abs_of_pos]
  have h3 : turboExhaustedStep inpQual stQual =
      ({ stQual with
          optimal_value := 5
          optimal_config := [1]
          failcount_TurBO := -1
          failcount_BOinG := 2
          run_TuRBO := false }, TurboTrialAction.restartReturn) := by
    rw [turboExhaustedStep]
    rw [if_pos h1]
    rw [if_pos hq]
    rw [if_neg (show ¬ inpQual.rand_value <
        (1/10) * (((stQual.failcount_TurBO - 1) : ℤ) : ℚ) by
      norm_num [inpQual, stQual])]
    refine Prod.ext ?_ rfl
    norm_num [inpQual, stQual, idxmin, idxminAux]
    decide
  exact ⟨h1, hq, by rw [h3], by rw [h3]⟩

/-- C7, amended: in every exhausted trial, `failcount_TurBO` is incremented
exactly in the 'otherwise' case (non-negative improvement) and never increased
otherwise; the uniform draw happens unconditionally, the controller is
restarted exactly when the draw does not fire — even in trials in which the
qualifying test already transitioned the chooser — and both outcomes of the
branch return trust-region candidates. -/
theorem C7_draw_unconditional (inp : TurboTrialInput) (s : SwitchState) :
    (0 ≤ inp.optimal_turbo - s.optimal_value →
      (turboExhaustedStep inp s).1.failcount_TurBO = s.failcount_TurBO + 1) ∧
    (inp.optimal_turbo - s.optimal_value < 0 →
      (turboExhaustedStep inp s).1.failcount_TurBO ≤ s.failcount_TurBO) ∧
    ((turboExhaustedStep inp s).2 = TurboTrialAction.restartReturn ↔
      ¬ inp.rand_value < (1/10) * ((turboExhaustedStep inp s).1.failcount_TurBO : ℚ)) ∧
    ((turboExhaustedStep inp s).2 = TurboTrialAction.restartReturn ∨
      (turboExhaustedStep inp s).2 = TurboTrialAction.observeReturn) := by
  rw [turboExhaustedStep]
  by_cases hneg : inp.optimal_turbo - s.optimal_value < 0
  · rw [if_pos hneg]
    by_cases hq : inp.optimal_turbo - s.optimal_value <
        -(1/1000) * |inp.Y_raw.getD (idxmin inp.Y_raw) 0| ∨
        inp.ss_threshold ≤
          |(List.zipWith (fun a b => a - b) (inp.X.getD (idxmin inp.Y_raw) [])
              s.optimal_config).prod|
    · rw [if_pos hq]
      by_cases hr : inp.rand_value < (1/10) * (((s.failcount_TurBO - 1) : ℤ) : ℚ)
      · rw [if_pos hr]
        refine ⟨fun h => absurd hneg (not_lt.mpr h),
          fun _ => show s.failcount_TurBO - 1 ≤ s.failcount_TurBO by omega, ?_, Or.inr rfl⟩
        simpa using hr
      · rw [if_neg hr]
        refine ⟨fun h => absurd hneg (not_lt.mpr h),
          fun _ => show s.failcount_TurBO - 1 ≤ s.failcount_TurBO by omega, ?_, Or.inl rfl⟩
        simpa using hr
    · rw [if_neg hq]
      by_cases hr : inp.rand_value < (1/10) * ((s.failcount_TurBO : ℤ) : ℚ)
      · rw [if_pos hr]
        refine ⟨fun h => absurd hneg (not_lt.mpr h), fun _ => le_refl _, ?_, Or.inr rfl⟩
        simpa using hr
      · rw [if_neg hr]
        refine ⟨fun h => absurd hneg (not_lt.mpr h), fun _ => le_refl _, ?_, Or.inl rfl⟩
        simpa using hr
  · rw [if_neg hneg]
    by_cases hr : inp.rand_value < (1/10) * (((s.failcount_TurBO + 1) : ℤ) : ℚ)
    · rw [if_pos hr]
      refine ⟨fun _ => rfl, fun h => absurd h hneg, ?_, Or.inr rfl⟩
      simpa using hr
    · rw [if_neg hr]
      refine ⟨fun _ => rfl, fun h => absurd h hneg, ?_, Or.inl rfl⟩
      simpa using hr

/-- C7, witness for the amended theorem: in the concrete qualifying trial the
controller is restarted although the chooser transitioned. -/
theorem C7_draw_unconditional_witness :
    (turboExhaustedStep inpQual stQual).1.failcount_TurBO ≤ stQual.failcount_TurBO :=
  (C7_draw_unconditional inpQual stQual).2.1 (by norm_num [inpQual, stQual])

/-! ### `AbstractAcquisitionFunction.__call__`
(abstract_acquisition_function.py:66-88) -/

/-- An IEEE double as far as the `__call__` post-processing observes it: a
not-a-number, one of the two infinities, or a finite value. -/
inductive FloatVal : Type
  | nan : FloatVal
  | posInf : FloatVal
  | negInf : FloatVal
  | finite (q : ℚ) : FloatVal
deriving DecidableEq

/-- `np.isnan` on a single value (true only for NaN, false for both
infinities). -/
def FloatVal.isNaN : FloatVal → Bool
  | FloatVal.nan => true
  | _ => false

/-- Finiteness of a value (`np.isfinite`). -/
def FloatVal.finiteVal : FloatVal → Bool
  | FloatVal.finite _ => true
  | _ => false

/-- `np.finfo(float).max` as an exact rational: `(2^53 - 1) * 2^971`. -/
def finfoMax : ℚ := (2 ^ 53 - 1) * 2 ^ 971

/-- `AbstractAcquisitionFunction.__call__` after `_compute`
(abstract_acquisition_function.py:83-88): each NaN entry of the computed
acquisition column is overwritten with `-np.finfo(float).max`; every other
entry is returned unchanged.  `compute` stands for the subclass `_compute`. -/
def acqCall (compute : List (List ℚ) → List FloatVal) (X : List (List ℚ)) : List FloatVal :=
  (compute X).map (fun v => if v.isNaN then FloatVal.finite (-finfoMax) else v)

/-! ### Claim C9 -/

/-- C9, counterexample: a `_compute` returning positive infinity.  `np.isnan`
is false on infinities, so `__call__` returns the non-finite score unchanged
instead of replacing it with the worst possible score. -/
theorem C9_counterexample :
    acqCall (fun _ => [FloatVal.posInf]) [[0]] = [FloatVal.posInf] ∧
    FloatVal.posInf.finiteVal = false ∧
    FloatVal.posInf ≠ FloatVal.finite (-finfoMax) := by
  refine ⟨rfl, rfl, ?_⟩
  intro h
  exact absurd h (by simp)

/-- C9, amended: `__call__` replaces exactly the NaN entries produced by
`_compute` with `-np.finfo(float).max` and returns every other entry (finite
or infinite) unchanged; no NaN survives in the returned array, and the call is
total (never raises). -/
theorem C9_nan_only_replaced (compute : List (List ℚ) → List FloatVal) (X : List (List ℚ)) :
    (∀ v ∈ acqCall compute X, v.isNaN = false) ∧
    (∀ j, j < (compute X).length →
      (acqCall compute X).getD j FloatVal.nan =
        (if ((compute X).getD j FloatVal.nan).isNaN then FloatVal.finite (-finfoMax)
         else (compute X).getD j FloatVal.nan)) := by
  constructor
  · intro v hv
    rw [acqCall] at hv
    obtain ⟨w, _, rfl⟩ := List.mem_map.mp hv
    cases w <;> simp [FloatVal.isNaN]
  · intro j hj
    exact getD_map (compute X) _ j FloatVal.nan FloatVal.nan hj

/-- C9, witness for the amended theorem: the NaN entry of a concrete computed
column is replaced. -/
theorem C9_nan_only_replaced_witness :
    (acqCall (fun _ => [FloatVal.nan, FloatVal.posInf]) [[0]]).getD 0 FloatVal.nan =
      (if (((fun _ : List (List ℚ) => [FloatVal.nan, FloatVal.posInf]) [[0]]).getD 0
          FloatVal.nan).isNaN then FloatVal.finite (-finfoMax)
       else ((fun _ : List (List ℚ) => [FloatVal.nan, FloatVal.posInf]) [[0]]).getD 0
          FloatVal.nan) :=
  (C9_nan_only_replaced (fun _ => [FloatVal.nan, FloatVal.posInf]) [[0]]).2 0 (by decide)

/-! ### `BOinGChooser._collect_all_data_to_train_model` and the early exit of
`choose_next` (boing_chooser.py:458-498 and 300-303) -/

/-- One run-history record as the transformer exposes it: its budget, the
configuration vector and the transformed / raw costs. -/
structure RunRecord : Type where
  budget : ℚ
  x : List ℚ
  y : ℚ
  y_raw : ℚ

/-- The rows of the history at one budget level
(`rh2EPM.transform_with_raw(runhistory, budget_subset=[b])`). -/
def budgetRows (h : List RunRecord) (b : ℚ) : List RunRecord :=
  h.filter (fun e => decide (e.budget = b))

/-- The distinct budgets sorted from highest to lowest
(boing_chooser.py:461-466). -/
def available_budgets (h : List RunRecord) : List ℚ :=
  ((h.map RunRecord.budget).dedup).mergeSort (fun a b => decide (b ≤ a))

/-- The `for b in available_budgets` loop (boing_chooser.py:469-483): the first
budget with at least `min_samples_model` rows wins; if none qualifies the
empty arrays of lines 485-498 are returned (modelled as the empty list). -/
def collectLoop (h : List RunRecord) (min_samples : ℕ) : List ℚ → List RunRecord
  | [] => []
  | b :: bs =>
    if min_samples ≤ (budgetRows h b).length then budgetRows h b
    else collectLoop h min_samples bs

/-- `_collect_all_data_to_train_model` (boing_chooser.py:458-498). -/
def collect_all_data_to_train_model (h : List RunRecord) (min_samples : ℕ) : List RunRecord :=
  collectLoop h min_samples (available_budgets h)

/-- The control-flow outcome of the start of `choose_next`
(boing_chooser.py:238-306): delegate to the TuRBO branch, return a single
random-search candidate, or continue with model training and region
construction. -/
inductive ChooseOutcome : Type
  | turboBranch : ChooseOutcome
  | randomSingle : ChooseOutcome
  | proceedModel : ChooseOutcome
deriving DecidableEq

/-- The dispatch at the start of `choose_next`: the TuRBO branch is entered
when `do_switching` and `run_TuRBO` hold (line 238-239); otherwise an empty
collected `X` short-circuits to a single random-search candidate
(lines 300-303, `num_points=1`); otherwise the model is trained. -/
def chooseNextEntry (do_switching run_TuRBO : Bool) (X : List (List ℚ)) : ChooseOutcome :=
  if do_switching ∧ run_TuRBO then ChooseOutcome.turboBranch
  else if X.length = 0 then ChooseOutcome.randomSingle
  else ChooseOutcome.proceedModel

theorem collectLoop_eq_nil (h : List RunRecord) (min_samples : ℕ) :
    ∀ bs : List ℚ, (∀ b ∈ bs, (budgetRows h b).length < min_samples) →
      collectLoop h min_samples bs = [] := by
  intro bs
  induction bs with
  | nil => exact fun _ => rfl
  | cons b bs ih =>
    intro hfew
    rw [collectLoop]
    rw [if_neg (not_le.mpr (hfew b (List.mem_cons_self b bs)))]
    exact ih (fun c hc => hfew c (List.mem_cons_of_mem b hc))

/-! ### Claim C10 -/

/-- C10 (confirmed): with a non-empty history in which no budget level reaches
`min_samples_model` rows, `_collect_all_data_to_train_model` falls through to
the empty arrays, and `choose_next` (outside the TuRBO branch) therefore takes
the `X.shape[0] == 0` exit and returns exactly one randomly sampled candidate —
the same degradation path as for an empty history. -/
theorem C10_empty_collect_random (h : List RunRecord) (min_samples : ℕ) (ds : Bool)
    (_hne : h ≠ [])
    (hfew : ∀ b ∈ h.map RunRecord.budget, (budgetRows h b).length < min_samples) :
    collect_all_data_to_train_model h min_samples = [] ∧
    chooseNextEntry ds false
      ((collect_all_data_to_train_model h min_samples).map RunRecord.x) =
        ChooseOutcome.randomSingle := by
  have hcol : collect_all_data_to_train_model h min_samples = [] := by
    rw [collect_all_data_to_train_model]
    refine collectLoop_eq_nil h min_samples _ (fun b hb => ?_)
    refine hfew b ?_
    rw [available_budgets] at hb
    rw [List.mem_mergeSort] at hb
    exact List.mem_dedup.mp hb
  refine ⟨hcol, ?_⟩
  rw [hcol]
  rw [chooseNextEntry]
  rw [if_neg (by simp)]
  rfl

/-- C10, witness: a two-record history on distinct budgets with
`min_samples_model = 2`. -/
theorem C10_empty_collect_random_witness :
    collect_all_data_to_train_model
      [⟨1, [0], 3, 3⟩, ⟨2, [1], 4, 4⟩] 2 = [] ∧
    chooseNextEntry true false
      ((collect_all_data_to_train_model [⟨1, [0], 3, 3⟩, ⟨2, [1], 4, 4⟩] 2).map
        RunRecord.x) = ChooseOutcome.randomSingle :=
  C10_empty_collect_random [⟨1, [0], 3, 3⟩, ⟨2, [1], 4, 4⟩] 2 true (by simp)
    (by decide)

end Boing
